import Mathlib

/-!
Verification of the retrieval and session-memory subsystem of the
FFI Founder Copilot backend (a retrieval-augmented chat assistant).

The development shallowly embeds the relevant Python functions:

* backend/build_index.py : classify_doc_type, stable_id, chunk_text
* backend/session_store.py : get_last_messages, count_messages,
  delete_oldest_messages, get_summary, set_summary, append_message
* backend/main.py : the metadata-filter decision of retrieve_context
  together with the memoized presence cache, and the rolling-summary
  compaction block of the /chat handler.

Text is modelled as List Char (Python str), byte strings as List Nat
with entries below 256, and the SQLite message table as a list of rows
kept in insertion order with strictly increasing integer ids.
-/

namespace FFI

open List

/-! ## Python string primitives

Python str.strip with no arguments removes leading and trailing
whitespace. The source only ever strips ASCII text, so the ASCII
whitespace set is modelled.
-/

/-- Whitespace characters removed by Python str.strip (ASCII fragment). -/
def isPyWS (c : Char) : Bool :=
  c == ' ' || c == '\t' || c == '\n' || c == '\x0d' || c == '\x0b' || c == '\x0c'

/-- Python s.strip(): drop leading and trailing whitespace. -/
def pyStrip (l : List Char) : List Char :=
  ((l.dropWhile isPyWS).reverse.dropWhile isPyWS).reverse

/-- Python s.strip() on the String type. -/
def pyStripStr (s : String) : String :=
  String.mk (pyStrip s.data)

/-- Python s.lower(), restricted to the ASCII case mapping. -/
def lowerStr (l : List Char) : List Char := l.map Char.toLower

/-- A list is stripped when neither end can lose whitespace. -/
def Stripped (l : List Char) : Prop :=
  l.dropWhile isPyWS = l ∧ l.reverse.dropWhile isPyWS = l.reverse

/-! ## The chunker (build_index.py, chunk_text, lines 74-104) -/

/-- The paragraph stream: non-empty stripped lines of the input, in order.
Mirrors the comprehension on line 78 of build_index.py. -/
def paras (text : List Char) : List (List Char) :=
  ((text.splitOn '\n').map pyStrip).filter (fun p => !p.isEmpty)

/-- The greedy accumulation loop of chunk_text (lines 79-91), including the
final flush of a non-empty buffer. The argument cur is the running buffer. -/
def chunkAccum (maxChars : Nat) : List (List Char) → List Char → List (List Char)
  | [], cur => if cur.isEmpty then [] else [cur]
  | p :: ps, cur =>
    if cur.length + p.length + 1 ≤ maxChars then
      chunkAccum maxChars ps (pyStrip (cur ++ '\n' :: p))
    else
      (if cur.isEmpty then [] else [cur]) ++ chunkAccum maxChars ps p

/-- The chunks before the overlap pass: the value of the chunks variable on
line 91 of build_index.py. -/
def preChunks (text : List Char) (maxChars : Nat) : List (List Char) :=
  chunkAccum maxChars (paras text) []

/-- Python prev[-overlap:] if len(prev) > overlap else prev (line 100):
the trailing n characters of l, or all of l when it is not longer. -/
def takeLast (l : List Char) (n : Nat) : List Char := l.drop (l.length - n)

/-- One step of the overlap loop (lines 95-101): the first argument is the
previous pre-overlap chunk, prev = chunks[i - 1] in the Python loop; each
later chunk becomes strip(trailing overlap chars of prev, newline, chunk). -/
def overlapPass (ov : Nat) : List Char → List (List Char) → List (List Char)
  | _, [] => []
  | prev, c :: rest => pyStrip (takeLast prev ov ++ '\n' :: c) :: overlapPass ov c rest

/-- chunk_text (build_index.py lines 74-104): greedy paragraph accumulation
followed by the overlap pass, which runs only when overlap is non-zero and
more than one chunk resulted, keeps the first chunk as is, and rewrites
every later chunk through overlapPass. -/
def chunk_text (text : List Char) (maxChars overlap : Nat) : List (List Char) :=
  let chunks := preChunks text maxChars
  if overlap ≠ 0 ∧ 1 < chunks.length then
    match chunks with
    | [] => []
    | c :: rest => c :: overlapPass overlap c rest
  else chunks

/-- The accumulation loop as the spec words it, written without the internal
strip call: a paragraph is joined onto the buffer by a newline when the
joined length (buffer, newline separator, paragraph) stays within maxChars,
otherwise the non-empty buffer is flushed and the paragraph starts the new
buffer; a final non-empty buffer is flushed at the end. The theorem for C3
proves the code loop chunkAccum equal to this spec-side loop. -/
def greedyAccum (maxChars : Nat) : List (List Char) → List Char → List (List Char)
  | [], cur => if cur.isEmpty then [] else [cur]
  | p :: ps, cur =>
    if cur.length + p.length + 1 ≤ maxChars then
      greedyAccum maxChars ps (if cur.isEmpty then p else cur ++ '\n' :: p)
    else
      (if cur.isEmpty then [] else [cur]) ++ greedyAccum maxChars ps p

/-! ## Document classification (build_index.py, classify_doc_type, lines 53-63) -/

/-- Python substring containment: needle in hay. -/
def hasSub (needle hay : List Char) : Bool := decide (needle <:+: hay)

/-- classify_doc_type: case-insensitive substring heuristics on the filename,
first match wins, in the priority order of the source. -/
def classify_doc_type (filename : List Char) : List Char :=
  let fn := lowerStr filename
  if hasSub ("satzung".toList) fn then "satzung".toList
  else if hasSub ("datenschutz".toList) fn then "datenschutz".toList
  else if hasSub ("event".toList) fn || hasSub ("terms".toList) fn then
    "event_terms".toList
  else if hasSub ("spons".toList) fn || hasSub ("partner".toList) fn then
    "sponsoring".toList
  else "other".toList

/-! ## SHA-256 and the content identifier (build_index.py, stable_id, lines 66-71)

stable_id hashes the UTF-8 bytes of the pipe-joined key with
hashlib.sha256 and returns the lowercase hex digest. SHA-256 is embedded
below following FIPS 180-4: 32-bit words are Nat values reduced modulo
2 to the 32 at every operation.
-/

/-- 2 to the 32: the modulus of 32-bit words. -/
def w32 : Nat := 4294967296

/-- Right-rotation of a 32-bit word. -/
def rotr (n x : Nat) : Nat := ((x >>> n) + (x <<< (32 - n))) % w32

def ch32 (x y z : Nat) : Nat := (x &&& y) ^^^ ((x ^^^ 4294967295) &&& z)

def maj32 (x y z : Nat) : Nat := (x &&& y) ^^^ (x &&& z) ^^^ (y &&& z)

def bigSigma0 (x : Nat) : Nat := rotr 2 x ^^^ rotr 13 x ^^^ rotr 22 x

def bigSigma1 (x : Nat) : Nat := rotr 6 x ^^^ rotr 11 x ^^^ rotr 25 x

def smallSigma0 (x : Nat) : Nat := rotr 7 x ^^^ rotr 18 x ^^^ (x >>> 3)

def smallSigma1 (x : Nat) : Nat := rotr 17 x ^^^ rotr 19 x ^^^ (x >>> 10)

/-- The SHA-256 round constants, in decimal. -/
def K256 : List Nat :=
  [1116352408, 1899447441, 3049323471, 3921009573, 961987163,
   1508970993, 2453635748, 2870763221, 3624381080, 310598401,
   607225278, 1426881987, 1925078388, 2162078206, 2614888103,
   3248222580, 3835390401, 4022224774, 264347078, 604807628,
   770255983, 1249150122, 1555081692, 1996064986, 2554220882,
   2821834349, 2952996808, 3210313671, 3336571891, 3584528711,
   113926993, 338241895, 666307205, 773529912, 1294757372,
   1396182291, 1695183700, 1986661051, 2177026350, 2456956037,
   2730485921, 2820302411, 3259730800, 3345764771, 3516065817,
   3600352804, 4094571909, 275423344, 430227734, 506948616,
   659060556, 883997877, 958139571, 1322822218, 1537002063,
   1747873779, 1955562222, 2024104815, 2227730452, 2361852424,
   2428436474, 2756734187, 3204031479, 3329325298]

/-- The SHA-256 initial hash value. -/
structure Hash8 where
  a : Nat
  b : Nat
  c : Nat
  d : Nat
  e : Nat
  f : Nat
  g : Nat
  h : Nat
deriving DecidableEq

def initH : Hash8 :=
  ⟨1779033703, 3144134277, 1013904242, 2773480762,
   1359893119, 2600822924, 528734635, 1541459225⟩

/-- Combine four big-endian bytes into a 32-bit word. -/
def wordOfBytes (b0 b1 b2 b3 : Nat) : Nat := ((b0 * 256 + b1) * 256 + b2) * 256 + b3

/-- Split a byte list into big-endian 32-bit words. -/
def bytesToWords : List Nat → List Nat
  | b0 :: b1 :: b2 :: b3 :: rest => wordOfBytes b0 b1 b2 b3 :: bytesToWords rest
  | _ => []

/-- Extend the 16-word message schedule to 64 words (48 extension steps). -/
def extendSchedule : Nat → List Nat → List Nat
  | 0, w => w
  | n + 1, w =>
    let i := w.length
    extendSchedule n (w ++ [(smallSigma1 (w.getD (i - 2) 0) + w.getD (i - 7) 0
      + smallSigma0 (w.getD (i - 15) 0) + w.getD (i - 16) 0) % w32])

/-- One SHA-256 round: kw is the pair of round constant and schedule word. -/
def round256 (s : Hash8) (kw : Nat × Nat) : Hash8 :=
  let t1 := (s.h + bigSigma1 s.e + ch32 s.e s.f s.g + kw.1 + kw.2) % w32
  let t2 := (bigSigma0 s.a + maj32 s.a s.b s.c) % w32
  ⟨(t1 + t2) % w32, s.a, s.b, s.c, (s.d + t1) % w32, s.e, s.f, s.g⟩

/-- Compress one 64-byte block into the running hash state. -/
def compressBlock (s : Hash8) (block : List Nat) : Hash8 :=
  let w := extendSchedule 48 (bytesToWords block)
  let r := (K256.zip w).foldl round256 s
  ⟨(s.a + r.a) % w32, (s.b + r.b) % w32, (s.c + r.c) % w32, (s.d + r.d) % w32,
   (s.e + r.e) % w32, (s.f + r.f) % w32, (s.g + r.g) % w32, (s.h + r.h) % w32⟩

/-- Big-endian bytes of a Nat, fixed width in bytes. -/
def beBytes : Nat → Nat → List Nat
  | 0, _ => []
  | k + 1, n => (n >>> (8 * k)) % 256 :: beBytes k n

/-- SHA-256 padding: 0x80, zeros to 56 mod 64, and the 64-bit bit length. -/
def sha256Pad (msg : List Nat) : List Nat :=
  let padZeros := (64 - (msg.length + 9) % 64) % 64
  msg ++ 128 :: List.replicate padZeros 0 ++ beBytes 8 (8 * msg.length)

/-- Serialize the final state as 32 big-endian bytes. -/
def digestBytes (s : Hash8) : List Nat :=
  beBytes 4 s.a ++ beBytes 4 s.b ++ beBytes 4 s.c ++ beBytes 4 s.d ++
  beBytes 4 s.e ++ beBytes 4 s.f ++ beBytes 4 s.g ++ beBytes 4 s.h

/-- SHA-256 of a byte list, as 32 bytes. -/
def sha256 (msg : List Nat) : List Nat :=
  digestBytes (((sha256Pad msg).toChunks 64).foldl compressBlock initH)

/-- Lowercase hex digit characters. -/
def hexChars : List Char := "0123456789abcdef".toList

def hexDigitChar (n : Nat) : Char := hexChars.getD n '0'

/-- Two lowercase hex characters of one byte. -/
def byteToHex (b : Nat) : List Char := [hexDigitChar (b / 16), hexDigitChar (b % 16)]

/-- Lowercase hex digest string of a byte list (hexdigest). -/
def bytesToHex (bs : List Nat) : List Char := bs.flatMap byteToHex

/-- UTF-8 encoding of one character (1 to 4 bytes). -/
def utf8Char (c : Char) : List Nat :=
  let n := c.toNat
  if n < 128 then [n]
  else if n < 2048 then [192 + (n >>> 6), 128 + (n &&& 63)]
  else if n < 65536 then
    [224 + (n >>> 12), 128 + ((n >>> 6) &&& 63), 128 + (n &&& 63)]
  else
    [240 + (n >>> 18), 128 + ((n >>> 12) &&& 63), 128 + ((n >>> 6) &&& 63), 128 + (n &&& 63)]

/-- UTF-8 encoding of a character list. Lean Char excludes surrogates, so the
Python errors=ignore branch of str.encode never fires. -/
def utf8 (l : List Char) : List Nat := (l.map utf8Char).flatten

/-- The pipe-joined key of stable_id (line 70): source, page or 0, chunk
index and text, with numbers rendered in decimal. A missing page (None)
and page 0 both render as 0, as Python page or 0 does. -/
def pipeKey (source : List Char) (page : Option Nat) (chunkIdx : Nat) (text : List Char) :
    List Char :=
  source ++ '|' :: Nat.toDigits 10 (page.getD 0) ++ '|' :: Nat.toDigits 10 chunkIdx
    ++ '|' :: text

/-- stable_id (build_index.py lines 66-71): hex digest of the SHA-256 hash of
the UTF-8 bytes of the pipe-joined key. -/
def stable_id (source : List Char) (page : Option Nat) (chunkIdx : Nat) (text : List Char) :
    List Char :=
  bytesToHex (sha256 (utf8 (pipeKey source page chunkIdx text)))

/-! ## The session store (session_store.py)

The messages table is modelled as a list of rows in insertion order.
AUTOINCREMENT assigns strictly increasing ids, so a well-formed store
keeps msgs sorted by id; nextId exceeds every stored id. The sessions
table is a list of (session_id, summary) pairs; the timestamp columns
play no role in any claim and are omitted.
-/

structure Msg where
  id : Nat
  session_id : String
  role : String
  content : String
deriving DecidableEq

structure Store where
  msgs : List Msg
  sessions : List (String × String)
  nextId : Nat
deriving DecidableEq

/-- The rows of one session, in insertion (id) order. -/
def sessionMsgs (st : Store) (sid : String) : List Msg :=
  st.msgs.filter (fun m => m.session_id == sid)

/-- count_messages: SELECT COUNT(*) FROM messages WHERE session_id=? -/
def count_messages (st : Store) (sid : String) : Nat :=
  (sessionMsgs st sid).length

/-- get_last_messages: the last limit rows by id (ORDER BY id DESC LIMIT ?),
reversed back to chronological order, projected to (role, content). -/
def get_last_messages (st : Store) (sid : String) (limit : Nat) : List (String × String) :=
  (((sessionMsgs st sid).reverse.take limit).reverse).map (fun m => (m.role, m.content))

/-- delete_oldest_messages: delete the session rows whose id is not among
the ids of the last keepLast rows of that session. -/
def delete_oldest_messages (st : Store) (sid : String) (keepLast : Nat) : Store :=
  let keepIds := ((sessionMsgs st sid).reverse.take keepLast).map (fun m => m.id)
  let remaining := st.msgs.filter (fun m => !(m.session_id == sid && !keepIds.contains m.id))
  { st with msgs := remaining }

/-- get_summary: the summary column of the session row, or empty. -/
def get_summary (st : Store) (sid : String) : String :=
  match st.sessions.find? (fun s => s.1 == sid) with
  | some s => s.2
  | none => ""

/-- set_summary: upsert of the summary column. -/
def set_summary (st : Store) (sid : String) (summary : String) : Store :=
  if st.sessions.any (fun s => s.1 == sid) then
    { st with sessions := st.sessions.map (fun s => if s.1 == sid then (s.1, summary) else s) }
  else
    { st with sessions := st.sessions ++ [(sid, summary)] }

/-- append_message: insert a fresh row with the next id. -/
def append_message (st : Store) (sid role content : String) : Store :=
  { st with msgs := st.msgs ++ [⟨st.nextId, sid, role, content⟩], nextId := st.nextId + 1 }

/-- Ids are strictly increasing along the message list, as AUTOINCREMENT
guarantees for the rows in insertion order. -/
def WellOrdered (st : Store) : Prop :=
  st.msgs.Pairwise (fun m₁ m₂ => m₁.id < m₂.id)

/-! ## The /chat compaction block (main.py, lines 261-350) -/

def SUMMARY_TRIGGER_MESSAGES : Nat := 20

def KEEP_LAST_MESSAGES : Nat := 12

/-- The older slice handed to the summarizer (lines 322-323): of the last
TRIGGER + KEEP recent messages, all but the last KEEP. -/
def olderSlice (st : Store) (sid : String) : List (String × String) :=
  let older := get_last_messages st sid (SUMMARY_TRIGGER_MESSAGES + KEEP_LAST_MESSAGES)
  if older.length > KEEP_LAST_MESSAGES then older.take (older.length - KEEP_LAST_MESSAGES)
  else []

/-- The rolling-summary compaction block of the /chat handler (lines
321-350). svc is the outcome of the summarization call: none models a
raised exception (new_summary becomes empty), some s the returned
message content, which the handler strips. State changes happen only when
the stripped summary is non-empty: set_summary then
delete_oldest_messages. -/
def compactionStep (st : Store) (sid : String) (svc : Option String) : Store :=
  if count_messages st sid > SUMMARY_TRIGGER_MESSAGES then
    if !(olderSlice st sid).isEmpty then
      let new_summary := match svc with
        | none => ""
        | some s => pyStripStr s
      if new_summary ≠ "" then
        delete_oldest_messages (set_summary st sid new_summary) sid KEEP_LAST_MESSAGES
      else st
    else st
  else st

/-! ## The retrieval filter (main.py, retrieve_context lines 202-227)

The keyword test and the memoized presence check decide the optional
metadata filter. cache models the process-wide _SATZUNG_PRESENT cell,
probe the value _has_satzung_chunks() would return (the store probe is
external I/O). The function returns the chosen filter together with the
updated cache cell.
-/

def satzungKeyword : List Char := "satzung".toList

/-- Python: satzung in user_text.lower(). -/
def containsSatzung (userText : List Char) : Bool :=
  hasSub satzungKeyword (lowerStr userText)

/-- Lines 213-221 of retrieve_context: the where-filter decision and the
memoization of the presence probe. -/
def retrieveWhere (userText : List Char) (cache : Option Bool) (probe : Bool) :
    Option (List Char) × Option Bool :=
  if containsSatzung userText then
    let present := match cache with
      | none => probe
      | some b => b
    let cache' := match cache with
      | none => some probe
      | some b => some b
    (if present then some satzungKeyword else none, cache')
  else (none, cache)

/-- One stored vector-store entry, reduced to the fields the filter sees.
ranked lists are assumed ordered by similarity to the query embedding. -/
structure Entry where
  doc : String
  source : String
  doc_type : List Char
deriving DecidableEq

/-- The collection.query call (lines 223-227): top k of the ranked entries,
restricted first to the metadata filter when one is given. -/
def queryStore (ranked : List Entry) (k : Nat) : Option (List Char) → List Entry
  | none => ranked.take k
  | some dt => (ranked.filter (fun e => e.doc_type == dt)).take k

/-! ## Concrete stores used to witness the session-store theorems -/

/-- A store holding 21 messages of one session: enough to arm the
compaction trigger (20) with a non-empty older slice. -/
def demoStore : Store :=
  { msgs := (List.range 21).map (fun i => ⟨i, "s", "user", "m"⟩)
    sessions := [("s", "old summary")]
    nextId := 21 }

/-- A two-session store with interleaved insertion order. -/
def demoStore2 : Store :=
  { msgs := [⟨0, "a", "user", "m0"⟩, ⟨1, "b", "user", "m1"⟩,
             ⟨2, "a", "assistant", "m2"⟩, ⟨3, "a", "user", "m3"⟩]
    sessions := []
    nextId := 4 }

/-! ## Facts about pyStrip and stripped lists -/

theorem pyStrip_of_stripped {l : List Char} (h : Stripped l) : pyStrip l = l := by
  unfold pyStrip
  rw [h.1, h.2, List.reverse_reverse]

theorem dropWhile_cons_self {p : Char → Bool} {a : Char} {l : List Char}
    (h : (a :: l).dropWhile p = a :: l) : p a = false := by
  by_contra hne
  have ha : p a = true := by
    cases hpa : p a with
    | false => exact absurd hpa hne
    | true => rfl
  rw [List.dropWhile_cons, if_pos ha] at h
  have hlen : (l.dropWhile p).length ≤ l.length :=
    (List.dropWhile_sublist p).length_le
  rw [h] at hlen
  simp at hlen

theorem dropWhile_append_full (p : Char → Bool) (l₁ l₂ : List Char) :
    (l₁ ++ l₂).dropWhile p =
      if (l₁.dropWhile p).isEmpty then l₂.dropWhile p else l₁.dropWhile p ++ l₂ := by
  induction l₁ with
  | nil => simp
  | cons a t ih =>
    by_cases hpa : p a = true
    · simpa [List.dropWhile_cons, hpa] using ih
    · have hpa' : p a = false := by
        cases h : p a with
        | false => rfl
        | true => exact absurd h hpa
      simp [List.dropWhile_cons, hpa']

theorem dropWhile_idem (p : Char → Bool) (l : List Char) :
    (l.dropWhile p).dropWhile p = l.dropWhile p := by
  induction l with
  | nil => rfl
  | cons a t ih =>
    by_cases hpa : p a = true
    · simpa [List.dropWhile_cons, hpa] using ih
    · have hpa' : p a = false := by
        cases h : p a with
        | false => rfl
        | true => exact absurd h hpa
      simp [List.dropWhile_cons, hpa']

theorem dropWhile_head_false {p : Char → Bool} {l : List Char} {a : Char} {t : List Char}
    (h : l.dropWhile p = a :: t) : p a = false := by
  have : (a :: t).dropWhile p = a :: t := by
    conv_lhs => rw [← h]
    rw [dropWhile_idem, h]
  exact dropWhile_cons_self this

/-- The result of pyStrip is stripped. -/
theorem stripped_pyStrip (l : List Char) : Stripped (pyStrip l) := by
  unfold pyStrip
  set d := l.dropWhile isPyWS with hd
  set e := d.reverse.dropWhile isPyWS with he
  constructor
  · -- front side: the head of e.reverse is the head of d, which fails isPyWS
    cases hdc : d with
    | nil =>
      have : e = [] := by
        rw [he, hdc]
        rfl
      simp [this]
    | cons a t =>
      have hpa : isPyWS a = false := dropWhile_head_false (hd ▸ hdc)
      have : e = t.reverse.dropWhile isPyWS ++ [a] := by
        rw [he, hdc, List.reverse_cons, dropWhile_append_full]
        split
        · rename_i hemp
          simp only [List.isEmpty_iff] at hemp
          rw [hemp]
          simp [List.dropWhile_cons, hpa]
        · rfl
      rw [this]
      simp only [List.reverse_append, List.reverse_cons, List.reverse_nil, List.nil_append,
        List.cons_append, List.singleton_append]
      rw [List.dropWhile_cons, if_neg (by simp [hpa])]
  · -- back side: e.reverse.reverse = e, itself a dropWhile image
    rw [List.reverse_reverse]
    exact dropWhile_idem isPyWS _

theorem pyStrip_idem (l : List Char) : pyStrip (pyStrip l) = pyStrip l :=
  pyStrip_of_stripped (stripped_pyStrip l)

theorem pyStrip_sublist (l : List Char) : pyStrip l <+ l := by
  unfold pyStrip
  have h1 : (l.dropWhile isPyWS).reverse.dropWhile isPyWS <+ (l.dropWhile isPyWS).reverse :=
    List.dropWhile_sublist isPyWS
  have h2 : ((l.dropWhile isPyWS).reverse.dropWhile isPyWS).reverse <+ l.dropWhile isPyWS := by
    have := h1.reverse
    simpa using this
  exact h2.trans (List.dropWhile_sublist isPyWS)

theorem stripped_nil : Stripped ([] : List Char) := ⟨rfl, rfl⟩

/-- Joining two stripped non-empty pieces with a newline is stripped. -/
theorem stripped_append_cons {cur p : List Char}
    (hc : Stripped cur) (hcne : cur ≠ []) (hp : Stripped p) (hpne : p ≠ []) :
    Stripped (cur ++ '\n' :: p) := by
  constructor
  · cases hcc : cur with
    | nil => exact absurd hcc hcne
    | cons a t =>
      have hpa : isPyWS a = false := dropWhile_cons_self (by rw [← hcc, hc.1, hcc])
      simp [List.dropWhile_cons, hpa]
  · rw [List.reverse_append, List.reverse_cons]
    cases hpc : p.reverse with
    | nil => exact absurd (by simpa using hpc) hpne
    | cons b s =>
      have hpb : isPyWS b = false := dropWhile_cons_self (by rw [← hpc, hp.2, hpc])
      simp [List.dropWhile_cons, hpb]

theorem pyStrip_append_cons {cur p : List Char}
    (hc : Stripped cur) (hcne : cur ≠ []) (hp : Stripped p) (hpne : p ≠ []) :
    pyStrip (cur ++ '\n' :: p) = cur ++ '\n' :: p :=
  pyStrip_of_stripped (stripped_append_cons hc hcne hp hpne)

theorem pyStrip_newline_cons (p : List Char) : pyStrip ('\n' :: p) = pyStrip p := by
  unfold pyStrip
  rw [List.dropWhile_cons]
  norm_num [isPyWS]

/-! ## Facts about the paragraph stream and the accumulated chunks -/

theorem splitOnP_not_mem {p : Char → Bool} :
    ∀ {l piece : List Char}, piece ∈ l.splitOnP p → ∀ c ∈ piece, p c = false := by
  intro l
  induction l with
  | nil =>
    intro piece hmem c hc
    simp [List.splitOnP_nil] at hmem
    simp [hmem] at hc
  | cons a t ih =>
    intro piece hmem c hc
    by_cases hpa : p a = true
    · rw [List.splitOnP_cons, if_pos hpa] at hmem
      rcases List.mem_cons.mp hmem with h | h
      · rw [h] at hc
        simp at hc
      · exact ih h c hc
    · have hpa' : p a = false := by
        cases h : p a with
        | false => rfl
        | true => exact absurd h hpa
      rw [List.splitOnP_cons, if_neg (by simp [hpa'])] at hmem
      cases hsp : t.splitOnP p with
      | nil => exact absurd hsp (List.splitOnP_ne_nil p t)
      | cons h rest =>
        rw [hsp] at hmem
        simp only [List.modifyHead] at hmem
        rcases List.mem_cons.mp hmem with hmem' | hmem'
        · rw [hmem'] at hc
          rcases List.mem_cons.mp hc with hc' | hc'
          · rw [hc']
            exact hpa'
          · exact ih (hsp ▸ List.mem_cons_self h rest) c hc'
        · exact ih (hsp ▸ List.mem_cons_of_mem h hmem') c hc

theorem splitOn_newline_not_mem {l piece : List Char}
    (h : piece ∈ l.splitOn '\n') : '\n' ∉ piece := by
  intro hmem
  have := splitOnP_not_mem (p := (· == '\n')) h '\n' hmem
  simp at this

/-- Every paragraph of the stream is non-empty, stripped and newline-free. -/
theorem paras_mem {text p : List Char} (h : p ∈ paras text) :
    p ≠ [] ∧ Stripped p ∧ '\n' ∉ p := by
  unfold paras at h
  rcases List.mem_filter.mp h with ⟨hmap, hne⟩
  rcases List.mem_map.mp hmap with ⟨q, hq, hpq⟩
  refine ⟨?_, ?_, ?_⟩
  · intro hnil
    rw [hnil] at hne
    simp at hne
  · rw [← hpq]
    exact stripped_pyStrip q
  · intro hmem
    exact splitOn_newline_not_mem hq ((pyStrip_sublist q).mem (hpq ▸ hmem))

/-- Every chunk produced by the accumulation loop is non-empty and stripped. -/
theorem chunkAccum_mem {maxc : Nat} :
    ∀ {ps : List (List Char)} {cur : List Char},
      (∀ p ∈ ps, p ≠ [] ∧ Stripped p) →
      (cur = [] ∨ (cur ≠ [] ∧ Stripped cur)) →
      ∀ c ∈ chunkAccum maxc ps cur, c ≠ [] ∧ Stripped c := by
  intro ps
  induction ps with
  | nil =>
    intro cur _ hcur c hc
    unfold chunkAccum at hc
    rcases hcur with h | h
    · simp [h] at hc
    · rw [if_neg (by simp [h.1])] at hc
      rw [List.mem_singleton.mp hc]
      exact h
  | cons p ps ih =>
    intro cur hps hcur c hc
    have hp := hps p (List.mem_cons_self p ps)
    have hps' : ∀ q ∈ ps, q ≠ [] ∧ Stripped q :=
      fun q hq => hps q (List.mem_cons_of_mem p hq)
    unfold chunkAccum at hc
    split at hc
    · rcases hcur with h | h
      · rw [h, List.nil_append, pyStrip_newline_cons, pyStrip_of_stripped hp.2] at hc
        exact ih hps' (Or.inr hp) c hc
      · rw [pyStrip_append_cons h.2 h.1 hp.2 hp.1] at hc
        refine ih hps' (Or.inr ⟨by simp [h.1], stripped_append_cons h.2 h.1 hp.2 hp.1⟩) c hc
    · rcases List.mem_append.mp hc with h | h
      · rcases hcur with h' | h'
        · simp [h'] at h
        · rw [if_neg (by simp [h'.1])] at h
          rw [List.mem_singleton.mp h]
          exact h'
      · exact ih hps' (Or.inr hp) c h

theorem preChunks_mem {text c : List Char} {maxc : Nat} (h : c ∈ preChunks text maxc) :
    c ≠ [] ∧ Stripped c :=
  chunkAccum_mem (fun p hp => ⟨(paras_mem hp).1, (paras_mem hp).2.1⟩) (Or.inl rfl) c h

theorem chunkAccum_eq_greedy {maxc : Nat} :
    ∀ {ps : List (List Char)} {cur : List Char},
      (∀ p ∈ ps, p ≠ [] ∧ Stripped p) →
      (cur = [] ∨ (cur ≠ [] ∧ Stripped cur)) →
      chunkAccum maxc ps cur = greedyAccum maxc ps cur := by
  intro ps
  induction ps with
  | nil => intro cur _ _; rfl
  | cons p ps ih =>
    intro cur hps hcur
    have hp := hps p (List.mem_cons_self p ps)
    have hps' : ∀ q ∈ ps, q ≠ [] ∧ Stripped q :=
      fun q hq => hps q (List.mem_cons_of_mem p hq)
    unfold chunkAccum greedyAccum
    split
    · rcases hcur with h | h
      · rw [h, List.nil_append, pyStrip_newline_cons, pyStrip_of_stripped hp.2]
        simp only [List.isEmpty_nil, if_pos]
        exact ih hps' (Or.inr hp)
      · rw [pyStrip_append_cons h.2 h.1 hp.2 hp.1, if_neg (by simp [h.1])]
        exact ih hps' (Or.inr ⟨by simp [h.1], stripped_append_cons h.2 h.1 hp.2 hp.1⟩)
    · rw [ih hps' (Or.inr hp)]

/-! ## Newline joins: intercalate facts used to reconstruct the stream -/

theorem ic_cons_cons (x y : List Char) (l : List (List Char)) :
    List.intercalate ['\n'] (x :: y :: l) = x ++ '\n' :: List.intercalate ['\n'] (y :: l) := by
  simp [List.intercalate, List.intersperse]

theorem ic_singleton (x : List Char) : List.intercalate ['\n'] [x] = x := by
  simp [List.intercalate]

theorem ic_ne_nil {g : List (List Char)} (hx : ∀ x ∈ g, x ≠ []) (hg : g ≠ []) :
    List.intercalate ['\n'] g ≠ [] := by
  cases g with
  | nil => exact absurd rfl hg
  | cons x l =>
    cases l with
    | nil =>
      rw [ic_singleton]
      exact hx x (List.mem_cons_self x [])
    | cons y l' =>
      rw [ic_cons_cons]
      have := hx x (List.mem_cons_self x (y :: l'))
      intro hcontra
      rcases List.append_eq_nil.mp hcontra with ⟨h1, _⟩
      exact this h1

theorem stripped_ic {g : List (List Char)} (hx : ∀ x ∈ g, x ≠ [] ∧ Stripped x) :
    Stripped (List.intercalate ['\n'] g) := by
  induction g with
  | nil => exact stripped_nil
  | cons x l ih =>
    cases l with
    | nil =>
      rw [ic_singleton]
      exact (hx x (List.mem_cons_self x [])).2
    | cons y l' =>
      rw [ic_cons_cons]
      have hxx := hx x (List.mem_cons_self x (y :: l'))
      have hrest : ∀ z ∈ y :: l', z ≠ [] ∧ Stripped z :=
        fun z hz => hx z (List.mem_cons_of_mem x hz)
      exact stripped_append_cons hxx.2 hxx.1 (ih hrest)
        (ic_ne_nil (fun z hz => (hrest z hz).1) (by simp))

theorem ic_append_ne : ∀ {A B : List (List Char)}, A ≠ [] → B ≠ [] →
    List.intercalate ['\n'] (A ++ B)
      = List.intercalate ['\n'] A ++ '\n' :: List.intercalate ['\n'] B := by
  intro A
  induction A with
  | nil => intro B h _; exact absurd rfl h
  | cons x A' ih =>
    intro B _ hB
    cases A' with
    | nil =>
      cases B with
      | nil => exact absurd rfl hB
      | cons b B' => simp [ic_cons_cons, ic_singleton]
    | cons y A'' =>
      have e1 : (x :: y :: A'') ++ B = x :: ((y :: A'') ++ B) := rfl
      have e2 : (y :: A'') ++ B = y :: (A'' ++ B) := rfl
      rw [e1, e2, ic_cons_cons, ← e2, ih (by simp) hB, ic_cons_cons]
      simp

theorem ic_append_last {g : List (List Char)} (p : List Char) (hg : g ≠ []) :
    List.intercalate ['\n'] (g ++ [p])
      = List.intercalate ['\n'] g ++ '\n' :: p := by
  rw [ic_append_ne hg (by simp), ic_singleton]

/-- Core of C4: flattening the accumulated chunks back through splitOn
recovers the consumed paragraph group followed by the pending paragraphs. -/
theorem chunkAccum_reconstruct {maxc : Nat} :
    ∀ {ps g : List (List Char)},
      (∀ x ∈ g, x ≠ [] ∧ Stripped x ∧ '\n' ∉ x) →
      (∀ p ∈ ps, p ≠ [] ∧ Stripped p ∧ '\n' ∉ p) →
      (chunkAccum maxc ps (List.intercalate ['\n'] g)).flatMap (fun c => c.splitOn '\n')
        = g ++ ps := by
  intro ps
  induction ps with
  | nil =>
    intro g hg _
    unfold chunkAccum
    by_cases hgn : g = []
    · simp [hgn, List.intercalate]
    · have hne := ic_ne_nil (fun x hx => (hg x hx).1) hgn
      rw [if_neg (by simp [hne])]
      have : [List.intercalate ['\n'] g].flatMap (fun c => c.splitOn '\n')
          = (List.intercalate ['\n'] g).splitOn '\n' := by simp
      rw [this, List.splitOn_intercalate g '\n' (fun l hl => (hg l hl).2.2) hgn,
        List.append_nil]
  | cons p ps ih =>
    intro g hg hps
    have hp := hps p (List.mem_cons_self p ps)
    have hps' : ∀ q ∈ ps, q ≠ [] ∧ Stripped q ∧ '\n' ∉ q :=
      fun q hq => hps q (List.mem_cons_of_mem p hq)
    unfold chunkAccum
    split
    · by_cases hgn : g = []
      · rw [hgn]
        have h0 : List.intercalate ['\n'] ([] : List (List Char)) = [] := by
          simp [List.intercalate]
        rw [h0, List.nil_append, pyStrip_newline_cons, pyStrip_of_stripped hp.2.1]
        have := ih (g := [p]) (by
          intro x hx
          rw [List.mem_singleton.mp hx]
          exact hp) hps'
        rw [ic_singleton] at this
        rw [this]
        simp
      · have hics := stripped_ic (fun x hx => ⟨(hg x hx).1, (hg x hx).2.1⟩)
        have hicn := ic_ne_nil (fun x hx => (hg x hx).1) hgn
        rw [pyStrip_append_cons hics hicn hp.2.1 hp.1, ← ic_append_last p hgn]
        have := ih (g := g ++ [p]) (by
          intro x hx
          rcases List.mem_append.mp hx with h | h
          · exact hg x h
          · rw [List.mem_singleton.mp h]
            exact hp) hps'
        rw [this]
        simp
    · rw [List.flatMap_append]
      have hrec := ih (g := [p]) (by
        intro x hx
        rw [List.mem_singleton.mp hx]
        exact hp) hps'
      rw [ic_singleton] at hrec
      rw [hrec]
      by_cases hgn : g = []
      · simp [hgn, List.intercalate]
      · have hne := ic_ne_nil (fun x hx => (hg x hx).1) hgn
        rw [if_neg (by simp [hne])]
        have : [List.intercalate ['\n'] g].flatMap (fun c => c.splitOn '\n')
            = (List.intercalate ['\n'] g).splitOn '\n' := by simp
        rw [this, List.splitOn_intercalate g '\n' (fun l hl => (hg l hl).2.2) hgn]
        simp

/-- Joining the split pieces of every chunk gives back the join of the chunks. -/
theorem ic_flatMap_splitOn :
    ∀ L : List (List Char),
      List.intercalate ['\n'] (L.flatMap (fun c => c.splitOn '\n'))
        = List.intercalate ['\n'] L := by
  intro L
  induction L with
  | nil => rfl
  | cons c L' ih =>
    cases hL : L' with
    | nil =>
      simp only [hL, List.flatMap_cons, List.flatMap_nil, List.append_nil]
      rw [List.intercalate_splitOn c '\n', ic_singleton]
    | cons d L'' =>
      rw [← hL, List.flatMap_cons]
      have hA : c.splitOn '\n' ≠ [] := List.splitOnP_ne_nil _ c
      have hB : L'.flatMap (fun c => c.splitOn '\n') ≠ [] := by
        rw [hL, List.flatMap_cons]
        intro hcontra
        rcases List.append_eq_nil.mp hcontra with ⟨h1, _⟩
        exact List.splitOnP_ne_nil _ d h1
      rw [ic_append_ne hA hB, List.intercalate_splitOn c '\n', ih, hL, ic_cons_cons]

/-! ## The overlap pass: locating and evaluating the stripped joins -/

theorem getElem?_some_lt {α : Type} {l : List α} {i : Nat} {a : α}
    (h : l[i]? = some a) : i < l.length := by
  by_contra hlt
  rw [List.getElem?_eq_none (Nat.le_of_not_lt hlt)] at h
  exact Option.noConfusion h

theorem takeLast_suffix (l : List Char) (n : Nat) : takeLast l n <:+ l :=
  List.drop_suffix _ _

theorem takeLast_length_le (l : List Char) (n : Nat) : (takeLast l n).length ≤ n := by
  unfold takeLast
  rw [List.length_drop]
  omega

theorem takeLast_reverse (l : List Char) (n : Nat) :
    (takeLast l n).reverse = l.reverse.take n := by
  unfold takeLast
  rw [List.take_reverse]

/-- Evaluating the stripped overlap join on stripped non-empty chunks: the
strip only trims leading whitespace off the trailing-overlap slice, and the
surviving slice is a non-empty suffix of the predecessor of length at most
the overlap. -/
theorem pyStrip_takeLast_join {prev ch : List Char} {n : Nat}
    (hprev : Stripped prev) (hpne : prev ≠ []) (hch : Stripped ch) (hcne : ch ≠ [])
    (hn : n ≠ 0) :
    pyStrip (takeLast prev n ++ '\n' :: ch)
        = (takeLast prev n).dropWhile isPyWS ++ '\n' :: ch
    ∧ (takeLast prev n).dropWhile isPyWS ≠ []
    ∧ ((takeLast prev n).dropWhile isPyWS).length ≤ n
    ∧ (takeLast prev n).dropWhile isPyWS <:+ prev := by
  set a := takeLast prev n with ha
  obtain ⟨b, s, hbs⟩ : ∃ b s, prev.reverse = b :: s := by
    cases hpr : prev.reverse with
    | nil => exact absurd (by simpa using hpr) hpne
    | cons b s => exact ⟨b, s, rfl⟩
  have hb : isPyWS b = false := dropWhile_cons_self (by rw [← hbs, hprev.2, hbs])
  obtain ⟨m, hm⟩ : ∃ m, n = m + 1 := ⟨n - 1, by omega⟩
  have har : a.reverse = b :: s.take m := by
    rw [ha, takeLast_reverse, hbs, hm, List.take_succ_cons]
  have haa : a = (s.take m).reverse ++ [b] := by
    have := congrArg List.reverse har
    simpa using this
  have hbmem : b ∈ a := by
    rw [haa]
    exact List.mem_append_right _ (List.mem_singleton_self b)
  have hs0 : a.dropWhile isPyWS ≠ [] := by
    intro hnil
    have := List.dropWhile_eq_nil_iff.mp hnil b hbmem
    rw [hb] at this
    exact Bool.noConfusion this
  obtain ⟨c0, cs, hccs⟩ : ∃ c0 cs, ch.reverse = c0 :: cs := by
    cases hcr : ch.reverse with
    | nil => exact absurd (by simpa using hcr) hcne
    | cons c0 cs => exact ⟨c0, cs, rfl⟩
  have hc0 : isPyWS c0 = false := dropWhile_cons_self (by rw [← hccs, hch.2, hccs])
  have hfront : (a ++ '\n' :: ch).dropWhile isPyWS = a.dropWhile isPyWS ++ '\n' :: ch := by
    rw [dropWhile_append_full, if_neg (by simp [hs0])]
  have hmain : pyStrip (a ++ '\n' :: ch) = a.dropWhile isPyWS ++ '\n' :: ch := by
    unfold pyStrip
    rw [hfront, List.reverse_append, List.reverse_cons, List.append_assoc, hccs,
      List.cons_append, List.dropWhile_cons, if_neg (by simp [hc0])]
    have hch' : ch = cs.reverse ++ [c0] := by
      have := congrArg List.reverse hccs
      simpa using this
    rw [hch']
    simp
  refine ⟨hmain, hs0, ?_, ?_⟩
  · calc (a.dropWhile isPyWS).length ≤ a.length := (List.dropWhile_sublist isPyWS).length_le
    _ ≤ n := takeLast_length_le prev n
  · exact (List.dropWhile_suffix isPyWS).trans (takeLast_suffix prev n)

/-- Indexing the overlap loop: entry i of the loop output is the stripped
join of pre-overlap chunks i and i + 1 (counting from the full chunk list,
whose head is the loop seed). -/
theorem overlapPass_getElem {ov : Nat} :
    ∀ {i : Nat} {c : List Char} {l : List (List Char)} {prev ch : List Char},
      (c :: l)[i]? = some prev → l[i]? = some ch →
      (overlapPass ov c l)[i]? = some (pyStrip (takeLast prev ov ++ '\n' :: ch)) := by
  intro i
  induction i with
  | zero =>
    intro c l prev ch h1 h2
    cases l with
    | nil => simp at h2
    | cons d rest =>
      simp only [List.getElem?_cons_zero, Option.some_inj] at h1 h2
      rw [← h1, ← h2]
      simp [overlapPass]
  | succ i ih =>
    intro c l prev ch h1 h2
    cases l with
    | nil => simp at h2
    | cons d rest =>
      rw [List.getElem?_cons_succ] at h1 h2
      unfold overlapPass
      rw [List.getElem?_cons_succ]
      exact ih h1 h2

/-- Indexing chunk_text: entry i + 1 of the output is the stripped overlap
join of pre-overlap chunks i and i + 1. -/
theorem chunk_text_getElem_succ {text : List Char} {maxc ov i : Nat} {prev ch : List Char}
    (hov : ov ≠ 0)
    (hp : (preChunks text maxc)[i]? = some prev)
    (hc : (preChunks text maxc)[i + 1]? = some ch) :
    (chunk_text text maxc ov)[i + 1]? = some (pyStrip (takeLast prev ov ++ '\n' :: ch)) := by
  have hlen : i + 1 < (preChunks text maxc).length := getElem?_some_lt hc
  unfold chunk_text
  rw [if_pos ⟨hov, by omega⟩]
  cases hchunks : preChunks text maxc with
  | nil =>
    rw [hchunks] at hc
    simp at hc
  | cons c rest =>
    rw [hchunks] at hp hc
    rw [List.getElem?_cons_succ] at hc
    rw [List.getElem?_cons_succ]
    exact overlapPass_getElem hp hc

/-! ## Claim C2 -/

/-- C2, counterexample: the claim states that each later chunk IS the
trailing overlap characters of its pre-overlap predecessor joined by a
newline to its own content. The code additionally strips the join
(line 101), so when the trailing slice starts with whitespace the claimed
equality fails: for the input with lines ab, c, ddd at maxChars 4 and
overlap 2, the pre-overlap chunks are [ab-newline-c, ddd]; the trailing 2
characters of the first are newline-c, and the claim predicts the second
output chunk newline-c-newline-ddd, while the code emits c-newline-ddd. -/
theorem overlap_exact_join_counterexample :
    preChunks ("ab\nc\nddd".toList) 4
        = [('a' :: 'b' :: '\n' :: 'c' :: []), ('d' :: 'd' :: 'd' :: [])]
    ∧ chunk_text ("ab\nc\nddd".toList) 4 2
        ≠ [('a' :: 'b' :: '\n' :: 'c' :: []),
            takeLast ('a' :: 'b' :: '\n' :: 'c' :: []) 2 ++ '\n' :: ('d' :: 'd' :: 'd' :: [])]
    ∧ chunk_text ("ab\nc\nddd".toList) 4 2
        = [('a' :: 'b' :: '\n' :: 'c' :: []), ('c' :: '\n' :: 'd' :: 'd' :: 'd' :: [])] := by
  decide

/-- C2, amended: with overlap nonzero, each output chunk from the second
onward is the stripped join of the trailing overlap characters (or the
whole chunk, if shorter) of the previous post-accumulation pre-overlap
chunk, a newline, and that chunk's own pre-overlap content; consequently
every chunk after the first begins with a non-empty suffix of at most
overlap characters of its pre-overlap predecessor. -/
theorem overlap_chunk_amended (text : List Char) (maxc ov i : Nat) (prev ch : List Char)
    (hov : ov ≠ 0)
    (hp : (preChunks text maxc)[i]? = some prev)
    (hc : (preChunks text maxc)[i + 1]? = some ch) :
    (chunk_text text maxc ov)[i + 1]? = some (pyStrip (takeLast prev ov ++ '\n' :: ch))
    ∧ ∃ s : List Char, s ≠ [] ∧ s.length ≤ ov ∧ s <:+ prev ∧
        (chunk_text text maxc ov)[i + 1]? = some (s ++ '\n' :: ch) := by
  have hprev := preChunks_mem (List.getElem?_mem hp)
  have hch := preChunks_mem (List.getElem?_mem hc)
  have hmain := chunk_text_getElem_succ hov hp hc
  have hjoin := pyStrip_takeLast_join hprev.2 hprev.1 hch.2 hch.1 hov
  refine ⟨hmain, (takeLast prev ov).dropWhile isPyWS, hjoin.2.1, hjoin.2.2.1, hjoin.2.2.2, ?_⟩
  rw [hmain, hjoin.1]

/-- C2, witness for the amended theorem at the counterexample input. -/
theorem overlap_chunk_amended_witness :
    (chunk_text ("ab\nc\nddd".toList) 4 2)[0 + 1]?
        = some (pyStrip (takeLast ("ab\nc".toList) 2 ++ '\n' :: ("ddd".toList)))
    ∧ ∃ s : List Char, s ≠ [] ∧ s.length ≤ 2 ∧ s <:+ ("ab\nc".toList) ∧
        (chunk_text ("ab\nc\nddd".toList) 4 2)[0 + 1]? = some (s ++ '\n' :: ("ddd".toList)) :=
  overlap_chunk_amended ("ab\nc\nddd".toList) 4 2 0 ("ab\nc".toList) ("ddd".toList)
    (by decide) (by decide) (by decide)

/-! ## Claim C3 -/

/-- C3: the accumulation is greedy exactly as the spec words it: a
paragraph is newline-joined onto the buffer when the joined length stays
within maxChars, otherwise the buffer is emitted and the paragraph starts
a new buffer, with a final non-empty buffer emitted at the end
(preChunks equals the strip-free spec loop greedyAccum); a single
paragraph longer than maxChars becomes one oversized chunk and is never
split; empty input (no non-empty lines) yields an empty sequence. -/
theorem greedy_accumulation_spec (text : List Char) (maxc : Nat) :
    preChunks text maxc = greedyAccum maxc (paras text) []
    ∧ (∀ p, paras text = [p] → preChunks text maxc = [p])
    ∧ (paras text = [] → ∀ ov, chunk_text text maxc ov = []) := by
  refine ⟨?_, ?_, ?_⟩
  · exact chunkAccum_eq_greedy (fun p hp => ⟨(paras_mem hp).1, (paras_mem hp).2.1⟩)
      (Or.inl rfl)
  · intro p hp
    have hpmem : p ≠ [] ∧ Stripped p ∧ '\n' ∉ p :=
      paras_mem (show p ∈ paras text by rw [hp]; exact List.mem_singleton_self p)
    unfold preChunks
    rw [hp]
    unfold chunkAccum
    split
    · rw [List.nil_append, pyStrip_newline_cons, pyStrip_of_stripped hpmem.2.1]
      simp [chunkAccum, List.isEmpty_iff, hpmem.1]
    · simp [chunkAccum, List.isEmpty_iff, hpmem.1]
  · intro hnil ov
    unfold chunk_text preChunks
    rw [hnil]
    simp [chunkAccum]

/-- C3, witness: one paragraph of five characters with maxChars 3 is kept
whole as a single oversized chunk. -/
theorem greedy_accumulation_spec_witness :
    preChunks ("aaaaa".toList) 3 = ["aaaaa".toList] :=
  (greedy_accumulation_spec ("aaaaa".toList) 3).2.1 ("aaaaa".toList) (by decide)

/-! ## Claim C4 -/

/-- C4: splitting each pre-overlap chunk on newlines and concatenating in
order reconstructs the paragraph stream exactly; equivalently, with
overlap zero the output chunks joined by newlines equal the paragraph
stream joined by newlines. -/
theorem chunks_reconstruct (text : List Char) (maxc : Nat) :
    (preChunks text maxc).flatMap (fun c => c.splitOn '\n') = paras text
    ∧ List.intercalate ['\n'] (chunk_text text maxc 0)
        = List.intercalate ['\n'] (paras text) := by
  have h1 : (preChunks text maxc).flatMap (fun c => c.splitOn '\n') = paras text := by
    have h0 : List.intercalate ['\n'] ([] : List (List Char)) = [] := by
      simp [List.intercalate]
    have hbase := @chunkAccum_reconstruct maxc (paras text) []
      (by intro x hx; simp at hx) (fun p hp => paras_mem hp)
    rw [h0] at hbase
    rw [List.nil_append] at hbase
    exact hbase
  refine ⟨h1, ?_⟩
  have h0 : chunk_text text maxc 0 = preChunks text maxc := by
    unfold chunk_text
    rw [if_neg (by simp)]
  rw [h0, ← h1, ic_flatMap_splitOn]

/-! ## Session store: retention and retrieval of recent messages -/

theorem contains_reverse {l : List Nat} {a : Nat} : l.reverse.contains a = l.contains a := by
  cases h1 : l.reverse.contains a <;> cases h2 : l.contains a <;> try rfl
  · have hmem : a ∈ l := List.elem_iff.mp h2
    have : l.reverse.contains a = true := List.elem_iff.mpr (List.mem_reverse.mpr hmem)
    rw [h1] at this
    exact Bool.noConfusion this
  · have hmem : a ∈ l.reverse := List.elem_iff.mp h1
    have : l.contains a = true := List.elem_iff.mpr (List.mem_reverse.mp hmem)
    rw [h2] at this
    exact Bool.noConfusion this

/-- On a list with strictly increasing ids, keeping exactly the rows whose
id occurs in the suffix from position j keeps exactly that suffix. -/
theorem filter_contains_drop {l : List Msg}
    (hl : l.Pairwise (fun x y => x.id < y.id)) (j : Nat) :
    l.filter (fun m => ((l.drop j).map (fun x => x.id)).contains m.id) = l.drop j := by
  set B := l.drop j with hB
  have hAB : l.take j ++ B = l := List.take_append_drop j l
  have hpair : (l.take j ++ B).Pairwise (fun x y => x.id < y.id) := by
    rw [hAB]; exact hl
  have hcross := (List.pairwise_append.mp hpair).2.2
  conv_lhs => rw [← hAB]
  rw [List.filter_append]
  have h1 : (l.take j).filter (fun m => (B.map (fun x => x.id)).contains m.id) = [] := by
    rw [List.filter_eq_nil_iff]
    intro a ha hcontains
    have hmem : a.id ∈ B.map (fun x => x.id) := List.elem_iff.mp hcontains
    rcases List.mem_map.mp hmem with ⟨b, hb, hba⟩
    have := hcross a ha b hb
    omega
  have h2 : B.filter (fun m => (B.map (fun x => x.id)).contains m.id) = B := by
    rw [List.filter_eq_self]
    intro b hb
    exact List.elem_iff.mpr (List.mem_map_of_mem _ hb)
  rw [h1, h2, List.nil_append]

/-- C6: delete_oldest_messages keeps exactly the min(K, total) most recent
rows of the session (by id, hence by insertion order), as the original
suffix of the session message list, and leaves other sessions untouched. -/
theorem delete_oldest_spec (st : Store) (sid : String) (K : Nat) (h : WellOrdered st) :
    sessionMsgs (delete_oldest_messages st sid K) sid
        = (sessionMsgs st sid).drop (count_messages st sid - K)
    ∧ count_messages (delete_oldest_messages st sid K) sid
        = min K (count_messages st sid)
    ∧ ∀ t, t ≠ sid → sessionMsgs (delete_oldest_messages st sid K) t = sessionMsgs st t := by
  have hpair : (sessionMsgs st sid).Pairwise (fun x y => x.id < y.id) :=
    List.Pairwise.filter _ h
  have hkeep : ((sessionMsgs st sid).reverse.take K).map (fun x => x.id)
      = (((sessionMsgs st sid).drop ((sessionMsgs st sid).length - K)).map
          (fun x => x.id)).reverse := by
    rw [List.take_reverse, List.map_reverse]
  have hmain : sessionMsgs (delete_oldest_messages st sid K) sid
      = (sessionMsgs st sid).drop (count_messages st sid - K) := by
    show (st.msgs.filter (fun m =>
        !(m.session_id == sid &&
          !((((sessionMsgs st sid).reverse.take K).map (fun x => x.id)).contains m.id)))).filter
        (fun m => m.session_id == sid)
      = (sessionMsgs st sid).drop (count_messages st sid - K)
    rw [List.filter_filter]
    have hstep : st.msgs.filter (fun m => (m.session_id == sid) &&
        !(m.session_id == sid &&
          !((((sessionMsgs st sid).reverse.take K).map (fun x => x.id)).contains m.id)))
      = st.msgs.filter (fun m =>
          ((((sessionMsgs st sid).reverse.take K).map (fun x => x.id)).contains m.id) &&
          (m.session_id == sid)) := by
      apply List.filter_congr
      intro m _
      cases he : (m.session_id == sid) <;>
        cases hc : (((sessionMsgs st sid).reverse.take K).map (fun x => x.id)).contains m.id <;>
        simp [he, hc]
    rw [hstep, ← List.filter_filter]
    show (sessionMsgs st sid).filter (fun m =>
        ((((sessionMsgs st sid).reverse.take K).map (fun x => x.id)).contains m.id))
      = (sessionMsgs st sid).drop (count_messages st sid - K)
    rw [List.filter_congr (fun m _ => by rw [hkeep, contains_reverse])]
    exact filter_contains_drop hpair _
  refine ⟨hmain, ?_, ?_⟩
  · show (sessionMsgs (delete_oldest_messages st sid K) sid).length = _
    rw [hmain, List.length_drop]
    unfold count_messages
    omega
  · intro t ht
    show (st.msgs.filter (fun m =>
        !(m.session_id == sid &&
          !((((sessionMsgs st sid).reverse.take K).map (fun x => x.id)).contains m.id)))).filter
        (fun m => m.session_id == t)
      = sessionMsgs st t
    rw [List.filter_filter]
    unfold sessionMsgs
    apply List.filter_congr
    intro m _
    cases ht' : (m.session_id == t)
    · simp
    · have hmt : m.session_id = t := by
        have := ht'
        exact eq_of_beq this
      have hnsid : (m.session_id == sid) = false := by
        rw [hmt]
        cases hq : (t == sid)
        · rfl
        · exact absurd (eq_of_beq hq) ht
      simp [hnsid]

/-- C6, witness at a concrete two-session store. -/
theorem delete_oldest_spec_witness :
    sessionMsgs (delete_oldest_messages demoStore2 "a" 2) "a"
        = (sessionMsgs demoStore2 "a").drop (count_messages demoStore2 "a" - 2)
    ∧ count_messages (delete_oldest_messages demoStore2 "a" 2) "a"
        = min 2 (count_messages demoStore2 "a")
    ∧ ∀ t, t ≠ "a" → sessionMsgs (delete_oldest_messages demoStore2 "a" 2) t
        = sessionMsgs demoStore2 t :=
  delete_oldest_spec demoStore2 "a" 2 (by unfold WellOrdered demoStore2; decide)

/-- C7: get_last_messages returns exactly the min(limit, total) most
recent rows of the session, i.e. the original suffix of the session
message list, oldest first, projected to (role, content) records. -/
theorem get_last_messages_spec (st : Store) (sid : String) (limit : Nat) :
    get_last_messages st sid limit
        = ((sessionMsgs st sid).drop (count_messages st sid - limit)).map
            (fun m => (m.role, m.content))
    ∧ (get_last_messages st sid limit).length = min limit (count_messages st sid) := by
  constructor
  · unfold get_last_messages count_messages
    rw [List.take_reverse, List.reverse_reverse]
  · unfold get_last_messages count_messages
    rw [List.length_map, List.length_reverse, List.length_take, List.length_reverse]

/-! ## Claim C1 -/

/-- C1: when the compaction flow is armed (message count above the trigger
and a non-empty older slice) and the summarization call fails (raises) or
returns content that strips to empty, the store is left exactly unchanged:
no set_summary, no delete_oldest_messages, summary and history intact, and
the trigger condition (including the non-empty older slice) still holds
for the next turn. -/
theorem compaction_failure_noop (st : Store) (sid : String) (svc : Option String)
    (htrig : count_messages st sid > SUMMARY_TRIGGER_MESSAGES)
    (holder : olderSlice st sid ≠ [])
    (hfail : svc = none ∨ ∃ s, svc = some s ∧ pyStripStr s = "") :
    compactionStep st sid svc = st
    ∧ get_summary (compactionStep st sid svc) sid = get_summary st sid
    ∧ (compactionStep st sid svc).msgs = st.msgs
    ∧ count_messages (compactionStep st sid svc) sid > SUMMARY_TRIGGER_MESSAGES
    ∧ olderSlice (compactionStep st sid svc) sid ≠ [] := by
  have hmain : compactionStep st sid svc = st := by
    unfold compactionStep
    rcases hfail with h | ⟨s, hs, hstrip⟩
    · subst h
      simp
    · subst hs
      simp [hstrip]
  exact ⟨hmain, by rw [hmain], by rw [hmain], by rw [hmain]; exact htrig,
    by rw [hmain]; exact holder⟩

/-- C1, witness: 21 messages of one session arm the trigger; a failed
summarizer call (none) leaves the store unchanged. -/
theorem compaction_failure_noop_witness :
    compactionStep demoStore "s" none = demoStore
    ∧ get_summary (compactionStep demoStore "s" none) "s" = get_summary demoStore "s"
    ∧ (compactionStep demoStore "s" none).msgs = demoStore.msgs
    ∧ count_messages (compactionStep demoStore "s" none) "s" > SUMMARY_TRIGGER_MESSAGES
    ∧ olderSlice (compactionStep demoStore "s" none) "s" ≠ [] :=
  compaction_failure_noop demoStore "s" none (by decide) (by decide) (Or.inl rfl)

/-! ## Claim C5 -/

/-- C5: the satzung metadata filter is applied if and only if the
lowercased query contains the keyword and the memoized presence check
(the cached cell if set, else the fresh probe) confirms the category;
the probe result is memoized exactly when the keyword occurs and the
cache is still unset, and once cached the decision no longer consults
the probe; whenever the category is reported absent the query runs with
no filter and so returns the same top-k as the unfiltered general query. -/
theorem retrieval_filter_spec (q : List Char) (cache : Option Bool) (probe probe' : Bool)
    (ranked : List Entry) (k : Nat) :
    ((retrieveWhere q cache probe).1 = some satzungKeyword
        ↔ containsSatzung q = true ∧ cache.getD probe = true)
    ∧ ((retrieveWhere q cache probe).2
        = if containsSatzung q then some (cache.getD probe) else cache)
    ∧ (cache.getD probe = false →
        queryStore ranked k (retrieveWhere q cache probe).1 = ranked.take k)
    ∧ (retrieveWhere q (retrieveWhere q cache probe).2 probe').1
        = (retrieveWhere q cache probe).1 := by
  cases hq : containsSatzung q with
  | false => simp [retrieveWhere, hq, queryStore]
  | true =>
    cases cache with
    | none => cases probe <;> simp [retrieveWhere, hq, queryStore]
    | some b => cases b <;> simp [retrieveWhere, hq, queryStore]

/-- C5, witness: a query mentioning Satzung, an unset cache and a store
probe reporting the category absent: no filter is applied, the probe value
is memoized, and the query equals the unfiltered one. -/
theorem retrieval_filter_spec_witness :
    ((retrieveWhere ("Was steht in der Satzung?".toList) none false).1 = some satzungKeyword
        ↔ containsSatzung ("Was steht in der Satzung?".toList) = true
          ∧ (none : Option Bool).getD false = true)
    ∧ ((retrieveWhere ("Was steht in der Satzung?".toList) none false).2
        = if containsSatzung ("Was steht in der Satzung?".toList) then
            some ((none : Option Bool).getD false) else none)
    ∧ ((none : Option Bool).getD false = false →
        queryStore [] 8 (retrieveWhere ("Was steht in der Satzung?".toList) none false).1
          = List.take 8 [])
    ∧ (retrieveWhere ("Was steht in der Satzung?".toList)
          (retrieveWhere ("Was steht in der Satzung?".toList) none false).2 true).1
        = (retrieveWhere ("Was steht in der Satzung?".toList) none false).1 :=
  retrieval_filter_spec ("Was steht in der Satzung?".toList) none false true [] 8

/-! ## Claim C8 -/

theorem beBytes_length : ∀ (k n : Nat), (beBytes k n).length = k
  | 0, _ => rfl
  | k + 1, n => by
    unfold beBytes
    rw [List.length_cons, beBytes_length k n]

theorem beBytes_lt : ∀ (k n : Nat), ∀ b ∈ beBytes k n, b < 256
  | 0, _, b, hb => by simp [beBytes] at hb
  | k + 1, n, b, hb => by
    unfold beBytes at hb
    rcases List.mem_cons.mp hb with h | h
    · rw [h]
      exact Nat.mod_lt _ (by norm_num)
    · exact beBytes_lt k n b h

theorem digestBytes_length (s : Hash8) : (digestBytes s).length = 32 := by
  simp [digestBytes, beBytes_length]

theorem digestBytes_lt (s : Hash8) : ∀ b ∈ digestBytes s, b < 256 := by
  intro b hb
  unfold digestBytes at hb
  simp only [List.mem_append] at hb
  rcases hb with ((((((h | h) | h) | h) | h) | h) | h) | h <;> exact beBytes_lt 4 _ b h

theorem sha256_length (msg : List Nat) : (sha256 msg).length = 32 :=
  digestBytes_length _

theorem sha256_lt (msg : List Nat) : ∀ b ∈ sha256 msg, b < 256 :=
  digestBytes_lt _

theorem bytesToHex_length : ∀ bs : List Nat, (bytesToHex bs).length = 2 * bs.length
  | [] => rfl
  | b :: bs => by
    have ih := bytesToHex_length bs
    unfold bytesToHex at ih ⊢
    rw [List.flatMap_cons, List.length_append, ih]
    simp [byteToHex]
    omega

theorem hexDigitChar_mem {n : Nat} (h : n < 16) : hexDigitChar n ∈ hexChars := by
  have hlen : n < hexChars.length := by
    have : hexChars.length = 16 := by decide
    omega
  unfold hexDigitChar
  rw [List.getD_eq_getElem hexChars '0' hlen]
  exact List.getElem_mem hlen

theorem byteToHex_mem {b : Nat} (hb : b < 256) : ∀ c ∈ byteToHex b, c ∈ hexChars := by
  intro c hc
  unfold byteToHex at hc
  rcases List.mem_cons.mp hc with h | h
  · rw [h]
    exact hexDigitChar_mem (by omega)
  · rcases List.mem_cons.mp h with h' | h'
    · rw [h']
      exact hexDigitChar_mem (Nat.mod_lt _ (by norm_num))
    · simp at h'

/-- SHA-256 test vector: the digest of the empty message. -/
theorem sha256_vector_empty :
    bytesToHex (sha256 []) =
      "e3b0c44298fc1c149afbf4c8996fb92427ae41e4649b934ca495991b7852b855".toList := by
  decide

/-- SHA-256 test vector: the digest of the ASCII string abc. -/
theorem sha256_vector_abc :
    bytesToHex (sha256 (utf8 "abc".toList)) =
      "ba7816bf8f01cfea414140de5dae2223b00361a396177a9cb410ff61f20015ad".toList := by
  decide

/-- C8: the content identifier is the SHA-256 hex digest of the UTF-8
bytes of the pipe-joined key in which a missing page is encoded as 0; it
always consists of exactly 64 characters, all lowercase hex digits, and
as a pure function it is deterministic: equal inputs give equal output. -/
theorem stable_id_spec (source : List Char) (page : Option Nat) (chunkIdx : Nat)
    (text : List Char) :
    stable_id source page chunkIdx text
        = bytesToHex (sha256 (utf8 (pipeKey source page chunkIdx text)))
    ∧ (stable_id source page chunkIdx text).length = 64
    ∧ (∀ c ∈ stable_id source page chunkIdx text, c ∈ hexChars)
    ∧ (∀ source2 page2 chunkIdx2 text2, source2 = source → page2 = page →
        chunkIdx2 = chunkIdx → text2 = text →
        stable_id source2 page2 chunkIdx2 text2 = stable_id source page chunkIdx text) := by
  refine ⟨rfl, ?_, ?_, ?_⟩
  · show (bytesToHex (sha256 (utf8 (pipeKey source page chunkIdx text)))).length = 64
    rw [bytesToHex_length, sha256_length]
  · intro c hc
    rcases List.mem_flatMap.mp hc with ⟨b, hb, hcb⟩
    exact byteToHex_mem (sha256_lt _ b hb) c hcb
  · intro s2 p2 i2 t2 hs hp hi ht
    rw [hs, hp, hi, ht]

/-- C8, witness at a concrete chunk key. -/
theorem stable_id_spec_witness :
    stable_id ("doc.txt".toList) none 0 ("hello".toList)
        = bytesToHex (sha256 (utf8 (pipeKey ("doc.txt".toList) none 0 ("hello".toList))))
    ∧ (stable_id ("doc.txt".toList) none 0 ("hello".toList)).length = 64
    ∧ (∀ c ∈ stable_id ("doc.txt".toList) none 0 ("hello".toList), c ∈ hexChars)
    ∧ (∀ source2 page2 chunkIdx2 text2, source2 = "doc.txt".toList → page2 = none →
        chunkIdx2 = 0 → text2 = "hello".toList →
        stable_id source2 page2 chunkIdx2 text2
          = stable_id ("doc.txt".toList) none 0 ("hello".toList)) :=
  stable_id_spec ("doc.txt".toList) none 0 ("hello".toList)

/-! ## Claim C9 -/

/-- C9: the classification always lands in the closed five-element set,
and is decided by case-insensitive substring tests in first-match
priority order: satzung, then datenschutz, then event or terms (as
event_terms), then spons or partner (as sponsoring), else other. -/
theorem classify_doc_type_spec (fn : List Char) :
    (classify_doc_type fn = "satzung".toList
      ∨ classify_doc_type fn = "datenschutz".toList
      ∨ classify_doc_type fn = "event_terms".toList
      ∨ classify_doc_type fn = "sponsoring".toList
      ∨ classify_doc_type fn = "other".toList)
    ∧ (hasSub ("satzung".toList) (lowerStr fn) = true →
        classify_doc_type fn = "satzung".toList)
    ∧ (hasSub ("satzung".toList) (lowerStr fn) = false →
        hasSub ("datenschutz".toList) (lowerStr fn) = true →
        classify_doc_type fn = "datenschutz".toList)
    ∧ (hasSub ("satzung".toList) (lowerStr fn) = false →
        hasSub ("datenschutz".toList) (lowerStr fn) = false →
        (hasSub ("event".toList) (lowerStr fn) = true
          ∨ hasSub ("terms".toList) (lowerStr fn) = true) →
        classify_doc_type fn = "event_terms".toList)
    ∧ (hasSub ("satzung".toList) (lowerStr fn) = false →
        hasSub ("datenschutz".toList) (lowerStr fn) = false →
        hasSub ("event".toList) (lowerStr fn) = false →
        hasSub ("terms".toList) (lowerStr fn) = false →
        (hasSub ("spons".toList) (lowerStr fn) = true
          ∨ hasSub ("partner".toList) (lowerStr fn) = true) →
        classify_doc_type fn = "sponsoring".toList)
    ∧ (hasSub ("satzung".toList) (lowerStr fn) = false →
        hasSub ("datenschutz".toList) (lowerStr fn) = false →
        hasSub ("event".toList) (lowerStr fn) = false →
        hasSub ("terms".toList) (lowerStr fn) = false →
        hasSub ("spons".toList) (lowerStr fn) = false →
        hasSub ("partner".toList) (lowerStr fn) = false →
        classify_doc_type fn = "other".toList) := by
  unfold classify_doc_type
  dsimp only
  split_ifs with h1 h2 h3 h4 <;> simp_all <;>
    first
      | (rcases h3 with h3 | h3 <;> simp_all)
      | (rcases h4 with h4 | h4 <;> simp_all)

/-- C9, witness on a satzung filename with mixed case. -/
theorem classify_doc_type_spec_witness :
    classify_doc_type ("FFI_Satzung_2024.pdf".toList) = "satzung".toList :=
  (classify_doc_type_spec ("FFI_Satzung_2024.pdf".toList)).2.1 (by decide)

/-! ## Claim C10 -/

/-- C10: the identifier key is not injective: a missing page and page 0
produce the same key (both encode as 0), and a pipe character inside the
source name shifts the field boundaries so that two different
(source, page, chunk index, text) tuples share one key; equal keys give
equal identifiers. -/
theorem stable_id_not_injective :
    (pipeKey ("a".toList) none 0 ("t".toList) = pipeKey ("a".toList) (some 0) 0 ("t".toList)
      ∧ (none : Option Nat) ≠ some 0
      ∧ stable_id ("a".toList) none 0 ("t".toList)
          = stable_id ("a".toList) (some 0) 0 ("t".toList))
    ∧ (pipeKey ("a|0".toList) none 1 ("t".toList)
          = pipeKey ("a".toList) (some 0) 0 ("1|t".toList)
      ∧ ("a|0".toList, (none : Option Nat), 1, "t".toList)
          ≠ ("a".toList, (some 0 : Option Nat), 0, "1|t".toList)
      ∧ stable_id ("a|0".toList) none 1 ("t".toList)
          = stable_id ("a".toList) (some 0) 0 ("1|t".toList)) := by
  have h1 : pipeKey ("a".toList) none 0 ("t".toList)
      = pipeKey ("a".toList) (some 0) 0 ("t".toList) := by decide
  have h2 : pipeKey ("a|0".toList) none 1 ("t".toList)
      = pipeKey ("a".toList) (some 0) 0 ("1|t".toList) := by decide
  refine ⟨⟨h1, by simp, ?_⟩, h2, by decide, ?_⟩
  · unfold stable_id
    rw [h1]
  · unfold stable_id
    rw [h2]

end FFI
